import Mathlib

/-!
Verification development for the SPHinXsys generalized particle-data store
(`src/SPHINXsys/src/shared/common/sph_data_containers.h`) and the multi-rate
time-integration scheduler of the two-phase dambreak driver
(`src/tests/2d_examples/test_2d_two_phase_dambreak/two_phase_dambreak.cpp`).

The C++ code is shallowly embedded: the tuple-of-vectors particle data becomes
a four-field structure of lists, the template dispatcher becomes a structure of
four state transformers applied in the source's fixed order, and the nested
scheduler loops become structurally recursive functions driven by a script of
estimator return values.  C++ `Real` (a floating-point type) is modelled by
exact rationals, so the algorithmic structure (minima, caps, running sums) is
captured while rounding is abstracted away.
-/

namespace SPH

/-- C++ `Real`, modelled as exact rationals. -/
abbrev Real := ℚ

/-- 2D `Vecd` (Eigen vector), as used by the two-phase dambreak case. -/
abbrev Vecd := Real × Real

/-- 2D `Matd` (Eigen matrix). -/
abbrev Matd := Vecd × Vecd

/-- The four fixed value categories of the generalized particle data, in the
order of the components of the C++ `ParticleData` tuple: `Real` (Scalar),
`Vecd` (Vector), `Matd` (Tensor/matrix), `int` (Integer). -/
inductive DataCategory where
  | Scalar
  | Vector
  | Tensor
  | Integer
deriving DecidableEq, Repr

/-- The C++ `ParticleData` tuple
`std::tuple<StdVec<StdLargeVec<Real>*>, StdVec<StdLargeVec<Vecd>*>,
StdVec<StdLargeVec<Matd>*>, StdVec<StdLargeVec<int>*>>`:
per category, a vector of owned variable arrays. -/
@[ext]
structure ParticleData where
  scalars : List (List Real)
  vectors : List (List Vecd)
  matrices : List (List Matd)
  integers : List (List Int)

/-- Invariant of the store: every registered variable array in every category
has length `N` (the particle count). -/
def ParticleData.uniformLength (pd : ParticleData) (N : Nat) : Prop :=
  (∀ v ∈ pd.scalars, v.length = N) ∧ (∀ v ∈ pd.vectors, v.length = N) ∧
    (∀ v ∈ pd.matrices, v.length = N) ∧ (∀ v ∈ pd.integers, v.length = N)

/-- `std::swap(variable[index_a], variable[index_b])` on one variable array.
Out-of-range indices are undefined behaviour in C++; the model leaves the list
unchanged there (all claims constrain the indices to be valid). -/
def swapAt (l : List α) (a b : Nat) : List α :=
  match l[a]?, l[b]? with
  | some x, some y => (l.set a y).set b x
  | _, _ => l

theorem swapAt_length (l : List α) (a b : Nat) : (swapAt l a b).length = l.length := by
  unfold swapAt
  split <;> simp

theorem getElem?_swapAt_right (l : List α) (a b : Nat) (ha : a < l.length)
    (hb : b < l.length) : (swapAt l a b)[b]? = l[a]? := by
  have hx : l[a]? = some l[a] := List.getElem?_eq_getElem ha
  have hy : l[b]? = some l[b] := List.getElem?_eq_getElem hb
  unfold swapAt
  rw [hx, hy]
  simp only
  rw [List.getElem?_set_self (by simpa using hb)]

theorem getElem?_swapAt_left (l : List α) (a b : Nat) (ha : a < l.length)
    (hb : b < l.length) : (swapAt l a b)[a]? = l[b]? := by
  have hx : l[a]? = some l[a] := List.getElem?_eq_getElem ha
  have hy : l[b]? = some l[b] := List.getElem?_eq_getElem hb
  by_cases hab : a = b
  · subst hab
    rw [getElem?_swapAt_right l a a ha ha]
  · unfold swapAt
    rw [hx, hy]
    simp only
    rw [List.getElem?_set_ne (fun h => hab h.symm), List.getElem?_set_self ha]

theorem getElem?_swapAt_other (l : List α) (a b n : Nat) (hna : n ≠ a) (hnb : n ≠ b) :
    (swapAt l a b)[n]? = l[n]? := by
  unfold swapAt
  split
  · rw [List.getElem?_set_ne (fun h => hnb h.symm), List.getElem?_set_ne (fun h => hna h.symm)]
  · rfl

theorem swapAt_swapAt (l : List α) (a b : Nat) (ha : a < l.length) (hb : b < l.length) :
    swapAt (swapAt l a b) a b = l := by
  have hla : a < (swapAt l a b).length := by rw [swapAt_length]; exact ha
  have hlb : b < (swapAt l a b).length := by rw [swapAt_length]; exact hb
  apply List.ext_getElem?
  intro n
  by_cases hnb : n = b
  · subst hnb
    rw [getElem?_swapAt_right _ a n hla hlb, getElem?_swapAt_left l a n ha hb]
  · by_cases hna : n = a
    · subst hna
      rw [getElem?_swapAt_left _ n b hla hlb, getElem?_swapAt_right l n b ha hb]
    · rw [getElem?_swapAt_other _ a b n hna hnb, getElem?_swapAt_other l a b n hna hnb]

/-- `swapParticleDataValue<VariableType>::operator()`: swap the elements at
`index_a` and `index_b` in every variable array of one category. -/
def swapParticleDataValue (vars : List (List α)) (index_a index_b : Nat) :
    List (List α) :=
  vars.map fun v => swapAt v index_a index_b

/-- `ParticleDataOperation<OperationType>`: the four category-specific
operation instances held by the dispatcher, acting on a state `σ`
(in the C++ code the state is the mutable `ParticleData` plus whatever the
operation instances capture). -/
structure ParticleDataOperation (σ : Type) where
  scalar_operation : σ → σ
  vector_operation : σ → σ
  matrix_operation : σ → σ
  integer_operation : σ → σ

/-- `ParticleDataOperation::operator()`: run the scalar, vector, matrix and
integer instances in that fixed textual order. -/
def ParticleDataOperation.apply (op : ParticleDataOperation σ) (s : σ) : σ :=
  op.integer_operation (op.matrix_operation (op.vector_operation (op.scalar_operation s)))

/-- The dispatcher instantiated with `swapParticleDataValue` for each
category, as `BaseParticles` does for particle sorting. -/
def swapOperation (index_a index_b : Nat) : ParticleDataOperation ParticleData where
  scalar_operation pd := { pd with scalars := swapParticleDataValue pd.scalars index_a index_b }
  vector_operation pd := { pd with vectors := swapParticleDataValue pd.vectors index_a index_b }
  matrix_operation pd := { pd with matrices := swapParticleDataValue pd.matrices index_a index_b }
  integer_operation pd := { pd with integers := swapParticleDataValue pd.integers index_a index_b }

/-- The cross-category swap: the dispatcher applied to the store. -/
def swapParticleData (pd : ParticleData) (index_a index_b : Nat) : ParticleData :=
  (swapOperation index_a index_b).apply pd

theorem swapParticleData_scalars (pd : ParticleData) (a b : Nat) :
    (swapParticleData pd a b).scalars = swapParticleDataValue pd.scalars a b := rfl

theorem swapParticleData_vectors (pd : ParticleData) (a b : Nat) :
    (swapParticleData pd a b).vectors = swapParticleDataValue pd.vectors a b := rfl

theorem swapParticleData_matrices (pd : ParticleData) (a b : Nat) :
    (swapParticleData pd a b).matrices = swapParticleDataValue pd.matrices a b := rfl

theorem swapParticleData_integers (pd : ParticleData) (a b : Nat) :
    (swapParticleData pd a b).integers = swapParticleDataValue pd.integers a b := rfl

theorem getElem?_swapParticleDataValue (vars : List (List α)) (a b i : Nat) :
    (swapParticleDataValue vars a b)[i]? = (vars[i]?).map fun v => swapAt v a b := by
  simp [swapParticleDataValue]

/-- In one category, swapping exchanges the two elements of every variable. -/
theorem swapValue_exchanges (vars : List (List α)) (N a b : Nat)
    (hlen : ∀ v ∈ vars, v.length = N) (ha : a < N) (hb : b < N) :
    ∀ (i : Nat) (v : List α), vars[i]? = some v →
      ∃ w : List α, (swapParticleDataValue vars a b)[i]? = some w ∧
        w[b]? = v[a]? ∧ w[a]? = v[b]? := by
  intro i v hv
  have hvN : v.length = N := hlen v (List.getElem?_mem hv)
  refine ⟨swapAt v a b, ?_, ?_, ?_⟩
  · rw [getElem?_swapParticleDataValue, hv]
    rfl
  · exact getElem?_swapAt_right v a b (hvN ▸ ha) (hvN ▸ hb)
  · exact getElem?_swapAt_left v a b (hvN ▸ ha) (hvN ▸ hb)

/-- In one category, swapping twice restores every variable. -/
theorem swapValue_involution (vars : List (List α)) (N a b : Nat)
    (hlen : ∀ v ∈ vars, v.length = N) (ha : a < N) (hb : b < N) :
    swapParticleDataValue (swapParticleDataValue vars a b) a b = vars := by
  unfold swapParticleDataValue
  rw [List.map_map]
  conv_rhs => rw [← List.map_id vars]
  apply List.map_congr_left
  intro v hv
  have hvN : v.length = N := hlen v hv
  exact swapAt_swapAt v a b (hvN ▸ ha) (hvN ▸ hb)

/-- In one category, swapping touches neither the number of variables, nor any
array length, nor any element away from the two swapped indices. -/
theorem swapValue_frame (vars : List (List α)) (a b i : Nat)
    (hia : i ≠ a) (hib : i ≠ b) :
    (swapParticleDataValue vars a b).length = vars.length ∧
      ∀ (j : Nat) (v : List α), vars[j]? = some v →
        ∃ w : List α, (swapParticleDataValue vars a b)[j]? = some w ∧
          w.length = v.length ∧ w[i]? = v[i]? := by
  constructor
  · simp [swapParticleDataValue]
  · intro j v hv
    refine ⟨swapAt v a b, ?_, swapAt_length v a b, getElem?_swapAt_other v a b i hia hib⟩
    rw [getElem?_swapParticleDataValue, hv]
    rfl

/-- A concrete three-particle store used to instantiate the swap theorems. -/
def pdEx : ParticleData where
  scalars := [[1, 2, 3], [4, 5, 6]]
  vectors := [[(1, 0), (0, 1), (2, 2)]]
  matrices := [[((1, 0), (0, 1)), ((2, 0), (0, 2)), ((3, 0), (0, 3))]]
  integers := [[7, 8, 9]]

/-- C5: for every particle data store satisfying the length invariant and
every pair of valid indices, the cross-category swap exchanges the elements at
`index_a` and `index_b` in every registered variable of every category — the
value previously at `a` is found at `b` and vice versa, with no variable
lagging. -/
theorem swap_exchanges_all_variables (pd : ParticleData) (N a b : Nat)
    (hlen : pd.uniformLength N) (ha : a < N) (hb : b < N) :
    (∀ (i : Nat) (v : List Real), pd.scalars[i]? = some v →
      ∃ w : List Real, (swapParticleData pd a b).scalars[i]? = some w ∧
        w[b]? = v[a]? ∧ w[a]? = v[b]?) ∧
    (∀ (i : Nat) (v : List Vecd), pd.vectors[i]? = some v →
      ∃ w : List Vecd, (swapParticleData pd a b).vectors[i]? = some w ∧
        w[b]? = v[a]? ∧ w[a]? = v[b]?) ∧
    (∀ (i : Nat) (v : List Matd), pd.matrices[i]? = some v →
      ∃ w : List Matd, (swapParticleData pd a b).matrices[i]? = some w ∧
        w[b]? = v[a]? ∧ w[a]? = v[b]?) ∧
    (∀ (i : Nat) (v : List Int), pd.integers[i]? = some v →
      ∃ w : List Int, (swapParticleData pd a b).integers[i]? = some w ∧
        w[b]? = v[a]? ∧ w[a]? = v[b]?) := by
  obtain ⟨h1, h2, h3, h4⟩ := hlen
  refine ⟨?_, ?_, ?_, ?_⟩
  · intro i v hv
    rw [swapParticleData_scalars]
    exact swapValue_exchanges pd.scalars N a b h1 ha hb i v hv
  · intro i v hv
    rw [swapParticleData_vectors]
    exact swapValue_exchanges pd.vectors N a b h2 ha hb i v hv
  · intro i v hv
    rw [swapParticleData_matrices]
    exact swapValue_exchanges pd.matrices N a b h3 ha hb i v hv
  · intro i v hv
    rw [swapParticleData_integers]
    exact swapValue_exchanges pd.integers N a b h4 ha hb i v hv

theorem swap_exchanges_all_variables_witness :
    ∃ w : List Real, (swapParticleData pdEx 0 2).scalars[0]? = some w ∧
      w[2]? = some 1 ∧ w[0]? = some 3 := by
  have h := swap_exchanges_all_variables pdEx 3 0 2
    (by unfold ParticleData.uniformLength; decide) (by decide) (by decide)
  obtain ⟨w, hw, hb, ha⟩ := h.1 0 [1, 2, 3] rfl
  exact ⟨w, hw, by rw [hb]; rfl, by rw [ha]; rfl⟩

/-- C6: performing the cross-category swap twice at the same pair of valid
indices restores every element of every registered variable in every category
(the swap is an involution). -/
theorem swap_involution (pd : ParticleData) (N a b : Nat)
    (hlen : pd.uniformLength N) (ha : a < N) (hb : b < N) :
    swapParticleData (swapParticleData pd a b) a b = pd := by
  obtain ⟨h1, h2, h3, h4⟩ := hlen
  apply ParticleData.ext
  · rw [swapParticleData_scalars, swapParticleData_scalars]
    exact swapValue_involution pd.scalars N a b h1 ha hb
  · rw [swapParticleData_vectors, swapParticleData_vectors]
    exact swapValue_involution pd.vectors N a b h2 ha hb
  · rw [swapParticleData_matrices, swapParticleData_matrices]
    exact swapValue_involution pd.matrices N a b h3 ha hb
  · rw [swapParticleData_integers, swapParticleData_integers]
    exact swapValue_involution pd.integers N a b h4 ha hb

theorem swap_involution_witness :
    swapParticleData (swapParticleData pdEx 0 2) 0 2 = pdEx :=
  swap_involution pdEx 3 0 2
    (by unfold ParticleData.uniformLength; decide) (by decide) (by decide)

/-- C10: the cross-category swap at valid indices `a`, `b` leaves every element
at an index `i` distinct from both unchanged, and leaves the number of arrays
per category and every array's length unchanged. -/
theorem swap_frame (pd : ParticleData) (N a b i : Nat)
    (_hlen : pd.uniformLength N) (_ha : a < N) (_hb : b < N)
    (hia : i ≠ a) (hib : i ≠ b) :
    ((swapParticleData pd a b).scalars.length = pd.scalars.length ∧
      (swapParticleData pd a b).vectors.length = pd.vectors.length ∧
      (swapParticleData pd a b).matrices.length = pd.matrices.length ∧
      (swapParticleData pd a b).integers.length = pd.integers.length) ∧
    (∀ (j : Nat) (v : List Real), pd.scalars[j]? = some v →
      ∃ w : List Real, (swapParticleData pd a b).scalars[j]? = some w ∧
        w.length = v.length ∧ w[i]? = v[i]?) ∧
    (∀ (j : Nat) (v : List Vecd), pd.vectors[j]? = some v →
      ∃ w : List Vecd, (swapParticleData pd a b).vectors[j]? = some w ∧
        w.length = v.length ∧ w[i]? = v[i]?) ∧
    (∀ (j : Nat) (v : List Matd), pd.matrices[j]? = some v →
      ∃ w : List Matd, (swapParticleData pd a b).matrices[j]? = some w ∧
        w.length = v.length ∧ w[i]? = v[i]?) ∧
    (∀ (j : Nat) (v : List Int), pd.integers[j]? = some v →
      ∃ w : List Int, (swapParticleData pd a b).integers[j]? = some w ∧
        w.length = v.length ∧ w[i]? = v[i]?) := by
  rw [swapParticleData_scalars, swapParticleData_vectors, swapParticleData_matrices,
    swapParticleData_integers]
  exact ⟨⟨(swapValue_frame pd.scalars a b i hia hib).1,
      (swapValue_frame pd.vectors a b i hia hib).1,
      (swapValue_frame pd.matrices a b i hia hib).1,
      (swapValue_frame pd.integers a b i hia hib).1⟩,
    (swapValue_frame pd.scalars a b i hia hib).2,
    (swapValue_frame pd.vectors a b i hia hib).2,
    (swapValue_frame pd.matrices a b i hia hib).2,
    (swapValue_frame pd.integers a b i hia hib).2⟩

theorem swap_frame_witness :
    ∃ w : List Real, (swapParticleData pdEx 0 2).scalars[1]? = some w ∧
      w.length = 3 ∧ w[1]? = some 5 := by
  have h := swap_frame pdEx 3 0 2 1
    (by unfold ParticleData.uniformLength; decide) (by decide) (by decide)
    (by decide) (by decide)
  obtain ⟨w, hw, hl, hi⟩ := h.2.1 1 [4, 5, 6] rfl
  exact ⟨w, hw, by rw [hl]; rfl, by rw [hi]; rfl⟩

/-- The fixed category order in which `ParticleDataOperation::operator()`
invokes its four instances. -/
def categoryOrder : List DataCategory :=
  [DataCategory.Scalar, DataCategory.Vector, DataCategory.Tensor, DataCategory.Integer]

/-- A dispatcher built from one operation family indexed by category, as the
C++ template `OperationType` instantiated at the four value types. -/
def operationFromFamily (g : DataCategory → σ → σ) : ParticleDataOperation σ where
  scalar_operation := g DataCategory.Scalar
  vector_operation := g DataCategory.Vector
  matrix_operation := g DataCategory.Tensor
  integer_operation := g DataCategory.Integer

/-- C7: applying the dispatcher runs the four category-specific instances in
the fixed order Scalar, Vector, Tensor, Integer: it equals the left fold of
the family over `categoryOrder`, and with instances that log their category
the observed side effects are exactly `categoryOrder`. -/
theorem dispatcher_runs_in_category_order :
    (∀ (σ : Type) (g : DataCategory → σ → σ) (s : σ),
      (operationFromFamily g).apply s = categoryOrder.foldl (fun t c => g c t) s) ∧
    (operationFromFamily fun c log => log ++ [c]).apply ([] : List DataCategory) =
      categoryOrder := by
  exact ⟨fun σ g s => rfl, rfl⟩

/-- The C++ `ParticleDataMap`
(`std::array<std::map<std::string, size_t>, 4>`): per category, the
name-to-position entries, listed in the map's iteration order. -/
def ParticleDataMap : Type := DataCategory → List (String × Nat)

/-- `loopParticleDataMap<VariableType>::operator()` for one category: visit
every entry of that category's data map, handing the visitor the variable name
and the array found at the entry's stored position (a registered entry always
holds a valid position; an invalid one dereferences to junk, modelled by the
empty array default). -/
def loopParticleDataMap (entries : List (String × Nat)) (vars : List (List α))
    (variable_operation : String → List α → σ → σ) (s : σ) : σ :=
  entries.foldl (fun t ni => variable_operation ni.1 (vars.getD ni.2 []) t) s

/-- The dispatcher instantiated with `loopParticleDataMap` for the four
categories — the "by variable map" iteration mode. -/
def dataMapOperation (pd : ParticleData) (m : ParticleDataMap)
    (scalar_op : String → List Real → σ → σ) (vector_op : String → List Vecd → σ → σ)
    (matrix_op : String → List Matd → σ → σ) (integer_op : String → List Int → σ → σ) :
    ParticleDataOperation σ where
  scalar_operation := loopParticleDataMap (m DataCategory.Scalar) pd.scalars scalar_op
  vector_operation := loopParticleDataMap (m DataCategory.Vector) pd.vectors vector_op
  matrix_operation := loopParticleDataMap (m DataCategory.Tensor) pd.matrices matrix_op
  integer_operation := loopParticleDataMap (m DataCategory.Integer) pd.integers integer_op

/-- The `(category, name)` visits produced by one dispatcher application in
by-variable-map mode, observed by logging visitors. -/
def dataMapVisits (pd : ParticleData) (m : ParticleDataMap) :
    List (DataCategory × String) :=
  (dataMapOperation pd m
    (fun n _ t => t ++ [(DataCategory.Scalar, n)])
    (fun n _ t => t ++ [(DataCategory.Vector, n)])
    (fun n _ t => t ++ [(DataCategory.Tensor, n)])
    (fun n _ t => t ++ [(DataCategory.Integer, n)])).apply []

/-- The variables reached by manually iterating the data maps of the four
categories one after the other. -/
def manualVisits (m : ParticleDataMap) : List (DataCategory × String) :=
  categoryOrder.flatMap fun c => (m c).map fun ni => (c, ni.1)

theorem loopParticleDataMap_log (entries : List (String × Nat))
    (vars : List (List α)) (c : DataCategory) (acc : List (DataCategory × String)) :
    loopParticleDataMap entries vars (fun n _ t => t ++ [(c, n)]) acc =
      acc ++ entries.map fun ni => (c, ni.1) := by
  induction entries generalizing acc with
  | nil => simp [loopParticleDataMap]
  | cons e rest ih =>
    simp only [loopParticleDataMap, List.foldl_cons] at ih ⊢
    rw [ih, List.append_assoc]
    rfl

/-- C8: in by-variable-map mode the dispatcher visits exactly the union of the
variables of the data maps of all four categories — the visit list equals the
manual enumeration, and when the per-category names are free of duplicates (as
they are for a `std::map`) no variable is visited twice. -/
theorem dispatcher_map_mode_complete (pd : ParticleData) (m : ParticleDataMap) :
    dataMapVisits pd m = manualVisits m ∧
      ((∀ c, ((m c).map Prod.fst).Nodup) → (dataMapVisits pd m).Nodup) := by
  have hvisits : dataMapVisits pd m = manualVisits m := by
    unfold dataMapVisits dataMapOperation ParticleDataOperation.apply manualVisits
    simp only [loopParticleDataMap_log]
    simp [categoryOrder]
  refine ⟨hvisits, fun hnd => ?_⟩
  rw [hvisits]
  unfold manualVisits
  rw [List.nodup_flatMap]
  constructor
  · intro c _
    have : ((m c).map fun ni => (c, ni.1)) = ((m c).map Prod.fst).map fun n => (c, n) := by
      simp
    rw [this]
    exact (hnd c).map fun x y hxy => congrArg Prod.snd hxy
  · have hpw : List.Pairwise (fun c₁ c₂ => c₁ ≠ c₂) categoryOrder := by decide
    refine hpw.imp ?_
    intro c₁ c₂ hne
    intro x hx₁ hx₂
    simp only [List.mem_map] at hx₁ hx₂
    obtain ⟨n₁, _, rfl⟩ := hx₁
    obtain ⟨n₂, _, h₂⟩ := hx₂
    exact hne (congrArg Prod.fst h₂).symm

/-- The data map of the concrete store `pdEx`. -/
def mEx : ParticleDataMap := fun c =>
  match c with
  | DataCategory.Scalar => [("Density", 0), ("Pressure", 1)]
  | DataCategory.Vector => [("Velocity", 0)]
  | DataCategory.Tensor => [("Stress", 0)]
  | DataCategory.Integer => [("SurfaceIndicator", 0)]

theorem dispatcher_map_mode_complete_witness :
    dataMapVisits pdEx mEx = manualVisits mEx ∧ (dataMapVisits pdEx mEx).Nodup := by
  have h := dispatcher_map_mode_complete pdEx mEx
  exact ⟨h.1, h.2 (by intro c; cases c <;> decide)⟩

/-- Modelled from the spec: `SMIN` (defined in `base_data_type.h`, which is
not part of the sources here) — the binary minimum used for all time-step
selections ("outer step `Dt = min` over all phases"). -/
def SMIN (a b : Real) : Real := min a b

/-- The two fluid phases of the two-phase dambreak driver. -/
inductive FluidPhase where
  | Water
  | Air
deriving DecidableEq, Repr

/-- The body relations whose configuration the driver refreshes once per
inner-loop iteration. -/
inductive BodyRelation where
  | WaterAirComplex
  | WaterWallContact
  | AirWaterComplex
  | AirWallContact
  | FluidObserverContact
deriving DecidableEq, Repr

/-- Observable operator invocations of one inner-loop iteration of the
driver's main loop. -/
inductive Event where
  | preStep (p : FluidPhase)
  | densitySummation (p : FluidPhase)
  | transportCorrection (p : FluidPhase) (Dt : Real)
  | pressureRelaxation (p : FluidPhase) (dt : Real)
  | densityRelaxation (p : FluidPhase) (dt : Real)
  | reorder (p : FluidPhase)
  | refresh (r : BodyRelation)
deriving DecidableEq, Repr

/-- `true` exactly on the particle-reorder and configuration-refresh events. -/
def Event.isStructureUpdate : Event → Bool
  | Event.reorder _ => true
  | Event.refresh _ => true
  | _ => false

/-- One acoustic sub-iteration's scripted estimator returns
(`get_water_time_step_size`, `get_air_time_step_size`). -/
structure AcousticEstimates where
  dt_f : Real
  dt_a : Real

/-- Result of the acoustic sub-loop: final `relaxation_time` and physical
time, the list of applied inner steps `dts`, the physical time after each
applied step, and the operator invocations. -/
structure SubLoopResult where
  relaxation_time : Real
  physical_time : Real
  dts : List Real
  times : List Real
  events : List Event

/-- The acoustic sub-loop, `while (relaxation_time < Dt)` at
`two_phase_dambreak.cpp:157-172`: each pass queries both phases' acoustic
estimators (scripted), computes `dt = SMIN(SMIN(dt_f, dt_a), Dt)`, runs the
pressure- and density-relaxation operators of both phases with `dt`, and adds
`dt` to `relaxation_time`, `integration_time` and the global physical time.
The loop is driven by the finite script of estimator returns and stops when
the script is exhausted, which loses no behaviour of a terminating loop. -/
def acousticSubLoop (Dt : Real) (script : List AcousticEstimates)
    (relaxation_time physical_time : Real) : SubLoopResult :=
  match script with
  | [] => ⟨relaxation_time, physical_time, [], [], []⟩
  | e :: rest =>
    if relaxation_time < Dt then
      let dt := SMIN (SMIN e.dt_f e.dt_a) Dt
      let r := acousticSubLoop Dt rest (relaxation_time + dt) (physical_time + dt)
      ⟨r.relaxation_time, r.physical_time, dt :: r.dts, (physical_time + dt) :: r.times,
        Event.pressureRelaxation FluidPhase.Water dt ::
          Event.pressureRelaxation FluidPhase.Air dt ::
          Event.densityRelaxation FluidPhase.Water dt ::
          Event.densityRelaxation FluidPhase.Air dt :: r.events⟩
    else ⟨relaxation_time, physical_time, [], [], []⟩

/-- One inner-loop iteration's scripted estimator returns: the two phases'
advection estimates and the acoustic estimates for the sub-loop passes. -/
structure InnerScript where
  Dt_f : Real
  Dt_a : Real
  acoustic : List AcousticEstimates

/-- Result of one inner-loop iteration. -/
structure InnerResult where
  Dt : Real
  physical_time : Real
  dts : List Real
  times : List Real
  events : List Event

/-- The reorder/refresh block at `two_phase_dambreak.cpp:194-202`:
`updateCellLinkedListWithParticleSort` for each fluid body and
`updateConfiguration` for every relation, in source order. -/
def updateStructureEvents : List Event :=
  [Event.reorder FluidPhase.Water, Event.refresh BodyRelation.WaterAirComplex,
    Event.refresh BodyRelation.WaterWallContact, Event.reorder FluidPhase.Air,
    Event.refresh BodyRelation.AirWaterComplex, Event.refresh BodyRelation.AirWallContact,
    Event.refresh BodyRelation.FluidObserverContact]

/-- One iteration of the inner loop (`two_phase_dambreak.cpp:138-203`):
pre-step updates, outer step `Dt = SMIN(Dt_f, Dt_a)`, density summation,
transport correction with `Dt`, the acoustic sub-loop with `relaxation_time`
reset to 0, then — once, after the sub-loop — particle reordering and
configuration refresh for both fluid bodies and all relations. -/
def innerIteration (sc : InnerScript) (physical_time : Real) : InnerResult :=
  let Dt := SMIN sc.Dt_f sc.Dt_a
  let r := acousticSubLoop Dt sc.acoustic 0 physical_time
  ⟨Dt, r.physical_time, r.dts, r.times,
    Event.preStep FluidPhase.Water :: Event.preStep FluidPhase.Air ::
      Event.densitySummation FluidPhase.Water :: Event.densitySummation FluidPhase.Air ::
      Event.transportCorrection FluidPhase.Air Dt :: (r.events ++ updateStructureEvents)⟩

/-- Result of the integration loop and of the main loop. -/
structure LoopResult where
  physical_time : Real
  dts : List Real
  times : List Real
  events : List Event

/-- The integration loop, `while (integration_time < output_interval)` at
`two_phase_dambreak.cpp:136-204`, driven by one scripted `InnerScript` per
iteration; `integration_time` grows by the sum of the applied inner steps. -/
def integrationLoop (output_interval : Real) (script : List InnerScript)
    (integration_time physical_time : Real) : LoopResult :=
  match script with
  | [] => ⟨physical_time, [], [], []⟩
  | sc :: rest =>
    if integration_time < output_interval then
      let r := innerIteration sc physical_time
      let rr := integrationLoop output_interval rest (integration_time + r.dts.sum)
        r.physical_time
      ⟨rr.physical_time, r.dts ++ rr.dts, r.times ++ rr.times, r.events ++ rr.events⟩
    else ⟨physical_time, [], [], []⟩

/-- The main loop, `while (physical_time_ < end_time)` at
`two_phase_dambreak.cpp:132-210`, with `integration_time` reset to 0 each
round; the driver starts it from `physical_time_ = 0`. -/
def mainLoop (end_time output_interval : Real) (script : List (List InnerScript))
    (physical_time : Real) : LoopResult :=
  match script with
  | [] => ⟨physical_time, [], [], []⟩
  | isc :: rest =>
    if physical_time < end_time then
      let r := integrationLoop output_interval isc 0 physical_time
      let rr := mainLoop end_time output_interval rest r.physical_time
      ⟨rr.physical_time, r.dts ++ rr.dts, r.times ++ rr.times, r.events ++ rr.events⟩
    else ⟨physical_time, [], [], []⟩

/-- `times` records, after each applied step, `start` plus the running sum of
the applied steps so far. -/
def runningSums (start : Real) (dts times : List Real) : Prop :=
  times.length = dts.length ∧
    ∀ k, k < dts.length → times[k]? = some (start + (dts.take (k + 1)).sum)

/-- All scripted estimator returns are nonnegative — the physical precondition
on the step estimators (the spec treats a non-positive estimate as fatal). -/
def ScriptNonneg (script : List (List InnerScript)) : Prop :=
  ∀ isc ∈ script, ∀ sc ∈ isc, 0 ≤ sc.Dt_f ∧ 0 ≤ sc.Dt_a ∧
    ∀ e ∈ sc.acoustic, 0 ≤ e.dt_f ∧ 0 ≤ e.dt_a

theorem runningSums_nil (s : Real) : runningSums s [] [] :=
  ⟨rfl, fun _ hk => absurd hk (by simp)⟩

theorem runningSums_cons (s d : Real) (ds ts : List Real)
    (h : runningSums (s + d) ds ts) : runningSums s (d :: ds) ((s + d) :: ts) := by
  obtain ⟨hlen, hk⟩ := h
  refine ⟨by simp [hlen], ?_⟩
  intro k hk'
  match k with
  | 0 => simp
  | k + 1 =>
    simp only [List.getElem?_cons_succ, List.take_succ_cons, List.sum_cons]
    rw [hk k (by simpa using hk')]
    congr 1
    ring

theorem runningSums_cons_inv (s d : Real) (ds : List Real) (t0 : Real) (ts : List Real)
    (h : runningSums s (d :: ds) (t0 :: ts)) :
    t0 = s + d ∧ runningSums (s + d) ds ts := by
  obtain ⟨hlen, hk⟩ := h
  have ht0 : t0 = s + d := by simpa using hk 0 (by simp)
  refine ⟨ht0, by simpa using hlen, ?_⟩
  intro k hk'
  have := hk (k + 1) (by simpa using hk')
  simpa [List.take_succ_cons, List.sum_cons, add_assoc] using this

theorem runningSums_append (s : Real) (d1 t1 d2 t2 : List Real)
    (h1 : runningSums s d1 t1) (h2 : runningSums (s + d1.sum) d2 t2) :
    runningSums s (d1 ++ d2) (t1 ++ t2) := by
  induction d1 generalizing s t1 with
  | nil =>
    obtain ⟨hlen, _⟩ := h1
    have ht1 : t1 = [] := List.eq_nil_of_length_eq_zero (by simpa using hlen)
    subst ht1
    simpa using h2
  | cons d ds ih =>
    cases t1 with
    | nil => simpa using h1.1
    | cons t0 ts =>
      obtain ⟨ht0, hts⟩ := runningSums_cons_inv s d ds t0 ts h1
      subst ht0
      have h2' : runningSums (s + d + ds.sum) d2 t2 := by
        rw [List.sum_cons, ← add_assoc] at h2
        exact h2
      exact runningSums_cons s d (ds ++ d2) (ts ++ t2) (ih (s + d) ts hts h2')

theorem chain_of_runningSums (s : Real) (dts times : List Real)
    (h : runningSums s dts times) (hpos : ∀ d ∈ dts, 0 ≤ d) :
    List.Chain' (fun x y => x ≤ y) (s :: times) := by
  induction dts generalizing s times with
  | nil =>
    obtain ⟨hlen, _⟩ := h
    have ht : times = [] := List.eq_nil_of_length_eq_zero (by simpa using hlen)
    subst ht
    simp
  | cons d ds ih =>
    cases times with
    | nil => exact absurd h.1 (by simp)
    | cons t0 ts =>
      obtain ⟨ht0, hts⟩ := runningSums_cons_inv s d ds t0 ts h
      subst ht0
      have hchain := ih (s + d) ts hts fun x hx => hpos x (List.mem_cons_of_mem d hx)
      exact List.Chain'.cons
        (by linarith [hpos d (List.mem_cons_self d ds)]) hchain

theorem acousticSubLoop_spec (Dt : Real) (script : List AcousticEstimates) (rt pt : Real) :
    (acousticSubLoop Dt script rt pt).relaxation_time =
        rt + (acousticSubLoop Dt script rt pt).dts.sum ∧
      (acousticSubLoop Dt script rt pt).physical_time =
        pt + (acousticSubLoop Dt script rt pt).dts.sum ∧
      runningSums pt (acousticSubLoop Dt script rt pt).dts
        (acousticSubLoop Dt script rt pt).times := by
  induction script generalizing rt pt with
  | nil =>
    refine ⟨by simp [acousticSubLoop], by simp [acousticSubLoop], ?_⟩
    simpa [acousticSubLoop] using runningSums_nil pt
  | cons e rest ih =>
    by_cases h : rt < Dt
    · obtain ⟨ih1, ih2, ih3⟩ := ih (rt + SMIN (SMIN e.dt_f e.dt_a) Dt)
        (pt + SMIN (SMIN e.dt_f e.dt_a) Dt)
      simp only [acousticSubLoop, if_pos h]
      refine ⟨?_, ?_, ?_⟩
      · simp only [List.sum_cons]
        rw [ih1]
        ring
      · simp only [List.sum_cons]
        rw [ih2]
        ring
      · exact runningSums_cons pt _ _ _ ih3
    · simp only [acousticSubLoop, if_neg h]
      refine ⟨by simp, by simp, ?_⟩
      simpa using runningSums_nil pt

theorem acousticSubLoop_dts_nonneg (Dt : Real) (script : List AcousticEstimates)
    (rt pt : Real) (hs : ∀ e ∈ script, 0 ≤ e.dt_f ∧ 0 ≤ e.dt_a) (hDt : 0 ≤ Dt) :
    ∀ d ∈ (acousticSubLoop Dt script rt pt).dts, 0 ≤ d := by
  induction script generalizing rt pt with
  | nil => simp [acousticSubLoop]
  | cons e rest ih =>
    by_cases h : rt < Dt
    · simp only [acousticSubLoop, if_pos h]
      intro d hd
      rcases List.mem_cons.1 hd with hd | hd
      · subst hd
        have he := hs e (List.mem_cons_self e rest)
        exact le_min (le_min he.1 he.2) hDt
      · exact ih _ _ (fun x hx => hs x (List.mem_cons_of_mem e hx)) d hd
    · simp [acousticSubLoop, if_neg h]

theorem acousticSubLoop_events_relax (Dt : Real) (script : List AcousticEstimates)
    (rt pt : Real) :
    ∀ ev ∈ (acousticSubLoop Dt script rt pt).events,
      Event.isStructureUpdate ev = false := by
  induction script generalizing rt pt with
  | nil => simp [acousticSubLoop]
  | cons e rest ih =>
    by_cases h : rt < Dt
    · simp only [acousticSubLoop, if_pos h]
      intro ev hev
      simp only [List.mem_cons] at hev
      rcases hev with rfl | rfl | rfl | rfl | hev
      · rfl
      · rfl
      · rfl
      · rfl
      · exact ih _ _ ev hev
    · simp [acousticSubLoop, if_neg h]

theorem acousticSubLoop_steps (Dt : Real) (script : List AcousticEstimates) (rt pt : Real) :
    (∀ k, k < (acousticSubLoop Dt script rt pt).dts.length →
      ∃ e : AcousticEstimates, script[k]? = some e ∧
        (acousticSubLoop Dt script rt pt).dts[k]? =
          some (SMIN (SMIN e.dt_f e.dt_a) Dt)) ∧
    ((acousticSubLoop Dt script rt pt).dts.length < script.length →
      Dt ≤ (acousticSubLoop Dt script rt pt).relaxation_time) := by
  induction script generalizing rt pt with
  | nil =>
    refine ⟨fun k hk => absurd hk (by simp [acousticSubLoop]), fun hlt => ?_⟩
    simp [acousticSubLoop] at hlt
  | cons e rest ih =>
    by_cases h : rt < Dt
    · obtain ⟨ih1, ih2⟩ := ih (rt + SMIN (SMIN e.dt_f e.dt_a) Dt)
        (pt + SMIN (SMIN e.dt_f e.dt_a) Dt)
      simp only [acousticSubLoop, if_pos h]
      constructor
      · intro k hk
        match k with
        | 0 => exact ⟨e, by simp, by simp⟩
        | k + 1 =>
          obtain ⟨e', he1, he2⟩ := ih1 k (by simpa using hk)
          exact ⟨e', by simpa using he1, by simpa using he2⟩
      · intro hlt
        exact ih2 (by simpa using hlt)
    · simp only [acousticSubLoop, if_neg h]
      refine ⟨fun k hk => absurd hk (by simp), fun _ => not_lt.1 h⟩

theorem innerIteration_spec (sc : InnerScript) (pt : Real) :
    (innerIteration sc pt).physical_time = pt + (innerIteration sc pt).dts.sum ∧
      runningSums pt (innerIteration sc pt).dts (innerIteration sc pt).times := by
  have h := acousticSubLoop_spec (SMIN sc.Dt_f sc.Dt_a) sc.acoustic 0 pt
  exact ⟨h.2.1, h.2.2⟩

theorem innerIteration_dts_nonneg (sc : InnerScript) (pt : Real)
    (h : 0 ≤ sc.Dt_f ∧ 0 ≤ sc.Dt_a ∧ ∀ e ∈ sc.acoustic, 0 ≤ e.dt_f ∧ 0 ≤ e.dt_a) :
    ∀ d ∈ (innerIteration sc pt).dts, 0 ≤ d :=
  acousticSubLoop_dts_nonneg (SMIN sc.Dt_f sc.Dt_a) sc.acoustic 0 pt h.2.2
    (le_min h.1 h.2.1)

theorem integrationLoop_spec (oi : Real) (script : List InnerScript) (it pt : Real) :
    (integrationLoop oi script it pt).physical_time =
        pt + (integrationLoop oi script it pt).dts.sum ∧
      runningSums pt (integrationLoop oi script it pt).dts
        (integrationLoop oi script it pt).times := by
  induction script generalizing it pt with
  | nil =>
    refine ⟨by simp [integrationLoop], ?_⟩
    simpa [integrationLoop] using runningSums_nil pt
  | cons sc rest ih =>
    by_cases h : it < oi
    · have hr := innerIteration_spec sc pt
      obtain ⟨ih1, ih2⟩ := ih (it + (innerIteration sc pt).dts.sum)
        (innerIteration sc pt).physical_time
      simp only [integrationLoop, if_pos h]
      constructor
      · simp only [List.sum_append]
        rw [ih1, hr.1]
        ring
      · refine runningSums_append pt _ _ _ _ hr.2 ?_
        rw [← hr.1]
        exact ih2
    · simp only [integrationLoop, if_neg h]
      refine ⟨by simp, ?_⟩
      simpa using runningSums_nil pt

theorem integrationLoop_dts_nonneg (oi : Real) (script : List InnerScript) (it pt : Real)
    (hs : ∀ sc ∈ script, 0 ≤ sc.Dt_f ∧ 0 ≤ sc.Dt_a ∧
      ∀ e ∈ sc.acoustic, 0 ≤ e.dt_f ∧ 0 ≤ e.dt_a) :
    ∀ d ∈ (integrationLoop oi script it pt).dts, 0 ≤ d := by
  induction script generalizing it pt with
  | nil => simp [integrationLoop]
  | cons sc rest ih =>
    by_cases h : it < oi
    · simp only [integrationLoop, if_pos h]
      intro d hd
      rcases List.mem_append.1 hd with hd | hd
      · exact innerIteration_dts_nonneg sc pt (hs sc (List.mem_cons_self sc rest)) d hd
      · exact ih _ _ (fun x hx => hs x (List.mem_cons_of_mem sc hx)) d hd
    · simp [integrationLoop, if_neg h]

theorem mainLoop_spec (end_time oi : Real) (script : List (List InnerScript)) (pt : Real) :
    (mainLoop end_time oi script pt).physical_time =
        pt + (mainLoop end_time oi script pt).dts.sum ∧
      runningSums pt (mainLoop end_time oi script pt).dts
        (mainLoop end_time oi script pt).times := by
  induction script generalizing pt with
  | nil =>
    refine ⟨by simp [mainLoop], ?_⟩
    simpa [mainLoop] using runningSums_nil pt
  | cons isc rest ih =>
    by_cases h : pt < end_time
    · have hr := integrationLoop_spec oi isc 0 pt
      obtain ⟨ih1, ih2⟩ := ih (integrationLoop oi isc 0 pt).physical_time
      simp only [mainLoop, if_pos h]
      constructor
      · simp only [List.sum_append]
        rw [ih1, hr.1]
        ring
      · refine runningSums_append pt _ _ _ _ hr.2 ?_
        rw [← hr.1]
        exact ih2
    · simp only [mainLoop, if_neg h]
      refine ⟨by simp, ?_⟩
      simpa using runningSums_nil pt

theorem mainLoop_dts_nonneg (end_time oi : Real) (script : List (List InnerScript))
    (pt : Real) (hs : ScriptNonneg script) :
    ∀ d ∈ (mainLoop end_time oi script pt).dts, 0 ≤ d := by
  induction script generalizing pt with
  | nil => simp [mainLoop]
  | cons isc rest ih =>
    by_cases h : pt < end_time
    · simp only [mainLoop, if_pos h]
      intro d hd
      rcases List.mem_append.1 hd with hd | hd
      · exact integrationLoop_dts_nonneg oi isc 0 pt
          (hs isc (List.mem_cons_self isc rest)) d hd
      · exact ih _ (fun x hx => hs x (List.mem_cons_of_mem isc hx)) d hd
    · simp [mainLoop, if_neg h]

/-- C1 counterexample: with `Dt = 1/50` (0.02) and both phases' acoustic
estimates `3/200` (0.015) in every pass, the second applied inner step is
`3/200` and not `min(3/200, Dt - relaxationTime) = 1/200` as the claim's cap
demands, and the sub-loop exits with `relaxationTime = 3/100 ≠ Dt`: the code
caps `dt` at `Dt` (line 161), not at `Dt - relaxation_time`, so the sub-loop
overshoots `Dt`. -/
theorem acoustic_overshoot_counterexample :
    (acousticSubLoop (1/50) [⟨3/200, 3/200⟩, ⟨3/200, 3/200⟩] 0 0).dts[1]? =
        some (3/200) ∧
      (3/200 : Real) ≠ SMIN (SMIN (3/200) (3/200)) (1/50 - 3/200) ∧
      (acousticSubLoop (1/50) [⟨3/200, 3/200⟩, ⟨3/200, 3/200⟩] 0 0).relaxation_time =
        3/100 ∧
      (3/100 : Real) ≠ 1/50 := by
  refine ⟨?_, by norm_num [SMIN, min_def], ?_, by norm_num⟩ <;>
    norm_num [acousticSubLoop, SMIN, min_def]

/-- C1 (amended): every applied inner step of the acoustic sub-loop equals
the minimum over the phases' acoustic estimates capped at `Dt` (not at
`Dt - relaxationTime`); at exit `relaxationTime` equals its initial value plus
the sum of the applied steps, and when the sub-loop exits by its condition
(with script entries left over) `relaxationTime` has reached at least `Dt`,
though it may overshoot `Dt` by up to one step. -/
theorem acoustic_subloop_cap_and_exit (Dt : Real) (script : List AcousticEstimates)
    (relaxation_time physical_time : Real) :
    (∀ k, k < (acousticSubLoop Dt script relaxation_time physical_time).dts.length →
      ∃ e : AcousticEstimates, script[k]? = some e ∧
        (acousticSubLoop Dt script relaxation_time physical_time).dts[k]? =
          some (SMIN (SMIN e.dt_f e.dt_a) Dt)) ∧
      (acousticSubLoop Dt script relaxation_time physical_time).relaxation_time =
        relaxation_time +
          (acousticSubLoop Dt script relaxation_time physical_time).dts.sum ∧
      ((acousticSubLoop Dt script relaxation_time physical_time).dts.length <
          script.length →
        Dt ≤ (acousticSubLoop Dt script relaxation_time physical_time).relaxation_time) :=
  ⟨(acousticSubLoop_steps Dt script relaxation_time physical_time).1,
    (acousticSubLoop_spec Dt script relaxation_time physical_time).1,
    (acousticSubLoop_steps Dt script relaxation_time physical_time).2⟩

theorem acoustic_subloop_cap_and_exit_witness :
    (1/50 : Real) ≤ (acousticSubLoop (1/50)
        [⟨1/100, 1/100⟩, ⟨1/100, 1/100⟩, ⟨1/100, 1/100⟩] 0 0).relaxation_time := by
  have h := acoustic_subloop_cap_and_exit (1/50)
    [⟨1/100, 1/100⟩, ⟨1/100, 1/100⟩, ⟨1/100, 1/100⟩] 0 0
  exact h.2.2 (by norm_num [acousticSubLoop, SMIN, min_def])

/-- C2 counterexample: with a scripted water acoustic estimate of 0 the
computed step `dt = 0` is applied rather than rejected — the four relaxation
operators are invoked with `dt = 0` and physical time stalls at its previous
value (5); no error path exists in the code. -/
theorem nonpositive_step_applied_counterexample :
    (acousticSubLoop (1/50) [⟨0, 1/100⟩] 0 5).dts = [0] ∧
      (acousticSubLoop (1/50) [⟨0, 1/100⟩] 0 5).physical_time = 5 ∧
      (acousticSubLoop (1/50) [⟨0, 1/100⟩] 0 5).events =
        [Event.pressureRelaxation FluidPhase.Water 0,
          Event.pressureRelaxation FluidPhase.Air 0,
          Event.densityRelaxation FluidPhase.Water 0,
          Event.densityRelaxation FluidPhase.Air 0] := by
  norm_num [acousticSubLoop, SMIN, min_def]

/-- When the sub-loop condition fails on entry (`relaxation_time < Dt` is
false, in particular whenever `Dt ≤ 0` and `relaxation_time = 0`), the
acoustic sub-loop runs no pass at all, whatever the script holds. -/
theorem acousticSubLoop_skips (Dt : Real) (script : List AcousticEstimates)
    (rt pt : Real) (h : ¬ rt < Dt) :
    acousticSubLoop Dt script rt pt = ⟨rt, pt, [], [], []⟩ := by
  cases script with
  | nil => rfl
  | cons e rest => simp [acousticSubLoop, h]

/-- C2 (amended): the scheduler performs no positivity check on any phase's
step estimate and has no error path.  A non-positive acoustic estimate from
either phase makes the inner step `SMIN(SMIN(dt_f, dt_a), Dt)` non-positive
(strictly negative if the estimate is negative), and whenever the sub-loop
runs a pass that step is still applied — handed to the relaxation operators
and added to the physical time, which a zero estimate stalls and a negative
one reverses.  A non-positive advection estimate from either phase makes `Dt`
non-positive, so the acoustic sub-loop is skipped entirely: no step is
applied, no relaxation operator is invoked, and physical time is unchanged —
simulated time stalls rather than an error surfacing. -/
theorem nonpositive_estimate_unchecked :
    (∀ (Dt : Real) (e : AcousticEstimates) (rest : List AcousticEstimates)
        (relaxation_time physical_time : Real),
      relaxation_time < Dt → e.dt_f ≤ 0 ∨ e.dt_a ≤ 0 →
        (acousticSubLoop Dt (e :: rest) relaxation_time physical_time).dts[0]? =
            some (SMIN (SMIN e.dt_f e.dt_a) Dt) ∧
          SMIN (SMIN e.dt_f e.dt_a) Dt ≤ 0 ∧
          (e.dt_f < 0 ∨ e.dt_a < 0 → SMIN (SMIN e.dt_f e.dt_a) Dt < 0) ∧
          (acousticSubLoop Dt (e :: rest) relaxation_time physical_time).times[0]? =
            some (physical_time + SMIN (SMIN e.dt_f e.dt_a) Dt) ∧
          (acousticSubLoop Dt (e :: rest) relaxation_time physical_time).events[0]? =
            some (Event.pressureRelaxation FluidPhase.Water
              (SMIN (SMIN e.dt_f e.dt_a) Dt))) ∧
    (∀ (sc : InnerScript) (physical_time : Real), sc.Dt_f ≤ 0 ∨ sc.Dt_a ≤ 0 →
      (innerIteration sc physical_time).Dt ≤ 0 ∧
        (innerIteration sc physical_time).dts = [] ∧
        (innerIteration sc physical_time).physical_time = physical_time ∧
        (innerIteration sc physical_time).events =
          Event.preStep FluidPhase.Water :: Event.preStep FluidPhase.Air ::
            Event.densitySummation FluidPhase.Water ::
            Event.densitySummation FluidPhase.Air ::
            Event.transportCorrection FluidPhase.Air (innerIteration sc physical_time).Dt ::
            updateStructureEvents) := by
  constructor
  · intro Dt e rest relaxation_time physical_time hrun hnp
    have hmin : SMIN e.dt_f e.dt_a ≤ 0 := by
      rcases hnp with h | h
      · exact le_trans (min_le_left _ _) h
      · exact le_trans (min_le_right _ _) h
    have hle : SMIN (SMIN e.dt_f e.dt_a) Dt ≤ 0 :=
      le_trans (min_le_left _ _) hmin
    have hneg : e.dt_f < 0 ∨ e.dt_a < 0 → SMIN (SMIN e.dt_f e.dt_a) Dt < 0 := by
      intro hs
      rcases hs with h | h
      · exact lt_of_le_of_lt (le_trans (min_le_left _ _) (min_le_left _ _)) h
      · exact lt_of_le_of_lt (le_trans (min_le_left _ _) (min_le_right _ _)) h
    refine ⟨?_, hle, hneg, ?_, ?_⟩ <;> simp [acousticSubLoop, if_pos hrun]
  · intro sc physical_time hnp
    have hDt : SMIN sc.Dt_f sc.Dt_a ≤ 0 := by
      rcases hnp with h | h
      · exact le_trans (min_le_left _ _) h
      · exact le_trans (min_le_right _ _) h
    have hskip := acousticSubLoop_skips (SMIN sc.Dt_f sc.Dt_a) sc.acoustic 0
      physical_time (not_lt.2 hDt)
    refine ⟨hDt, ?_, ?_, ?_⟩ <;> simp [innerIteration, hskip]

theorem nonpositive_estimate_unchecked_witness :
    (acousticSubLoop (1/50) [⟨0, 1/100⟩] 0 5).dts[0]? =
        some (SMIN (SMIN (0 : Real) (1/100)) (1/50)) ∧
      (innerIteration ⟨-1/100, 3/100, [⟨1/100, 1/100⟩]⟩ 7).dts = [] ∧
      (innerIteration ⟨-1/100, 3/100, [⟨1/100, 1/100⟩]⟩ 7).physical_time = 7 := by
  have h := nonpositive_estimate_unchecked
  have hA := h.1 (1/50) ⟨0, 1/100⟩ [] 0 5 (by norm_num) (Or.inl (by norm_num))
  have hB := h.2 ⟨-1/100, 3/100, [⟨1/100, 1/100⟩]⟩ 7 (Or.inl (by norm_num))
  exact ⟨hA.1, hB.2.1, hB.2.2.1⟩

/-- C3: starting with physical time 0, the scheduler's global time equals the
sum of all applied inner steps, at every point of the run equals the running
sum of the steps applied so far, and — under the physical precondition that
every scripted estimate is nonnegative — never decreases across the run. -/
theorem globalTime_monotone_and_sums (end_time output_interval : Real)
    (script : List (List InnerScript)) (hpos : ScriptNonneg script) :
    (mainLoop end_time output_interval script 0).physical_time =
        (mainLoop end_time output_interval script 0).dts.sum ∧
      runningSums 0 (mainLoop end_time output_interval script 0).dts
        (mainLoop end_time output_interval script 0).times ∧
      List.Chain' (fun x y => x ≤ y)
        (0 :: (mainLoop end_time output_interval script 0).times) := by
  have hspec := mainLoop_spec end_time output_interval script 0
  have hnn := mainLoop_dts_nonneg end_time output_interval script 0 hpos
  refine ⟨?_, hspec.2, chain_of_runningSums 0 _ _ hspec.2 hnn⟩
  rw [hspec.1]
  ring

theorem globalTime_monotone_and_sums_witness :
    (mainLoop 1 (1/10) [[⟨1/50, 3/100, [⟨1/100, 1/100⟩]⟩]] 0).physical_time =
      (mainLoop 1 (1/10) [[⟨1/50, 3/100, [⟨1/100, 1/100⟩]⟩]] 0).dts.sum := by
  have h := globalTime_monotone_and_sums 1 (1/10) [[⟨1/50, 3/100, [⟨1/100, 1/100⟩]⟩]]
    (by
      intro isc hisc sc hsc
      simp only [List.mem_singleton] at hisc
      subst hisc
      simp only [List.mem_singleton] at hsc
      subst hsc
      refine ⟨by norm_num, by norm_num, ?_⟩
      intro e he
      simp only [List.mem_singleton] at he
      subst he
      exact ⟨by norm_num, by norm_num⟩)
  exact h.1

/-- C4: in every inner-loop iteration the outer step is
`Dt = SMIN(Dt_f, Dt_a)`, the global minimum of the phases' advection
estimates; in particular with estimates 0.02 and 0.03 the outer step is
0.02. -/
theorem outer_step_is_global_min (sc : InnerScript) (physical_time : Real) :
    (innerIteration sc physical_time).Dt = min sc.Dt_f sc.Dt_a ∧
      (innerIteration ⟨2/100, 3/100, []⟩ 0).Dt = 2/100 := by
  refine ⟨rfl, ?_⟩
  show SMIN (2/100) (3/100) = 2/100
  norm_num [SMIN, min_def]

/-- The events of one inner-loop iteration that precede the reorder/refresh
block: the pre-step, density-summation and transport-correction calls and the
acoustic sub-loop's relaxation passes. -/
def preEvents (sc : InnerScript) (physical_time : Real) : List Event :=
  Event.preStep FluidPhase.Water :: Event.preStep FluidPhase.Air ::
    Event.densitySummation FluidPhase.Water :: Event.densitySummation FluidPhase.Air ::
    Event.transportCorrection FluidPhase.Air (SMIN sc.Dt_f sc.Dt_a) ::
    (acousticSubLoop (SMIN sc.Dt_f sc.Dt_a) sc.acoustic 0 physical_time).events

theorem preEvents_no_structure_update (sc : InnerScript) (physical_time : Real) :
    ∀ ev ∈ preEvents sc physical_time, Event.isStructureUpdate ev = false := by
  intro ev hev
  simp only [preEvents, List.mem_cons] at hev
  rcases hev with rfl | rfl | rfl | rfl | rfl | hev
  · rfl
  · rfl
  · rfl
  · rfl
  · rfl
  · exact acousticSubLoop_events_relax _ _ _ _ ev hev

/-- C9: in every inner-loop iteration the events split as a prefix containing
no reorder or configuration-refresh, followed by the reorder/refresh block —
so reordering and refresh happen after the acoustic sub-loop, never inside a
sub-iteration, and each of the seven reorder/refresh operations (both fluid
bodies, all five relations) occurs exactly once in the iteration. -/
theorem reorder_refresh_once_after_subloop (sc : InnerScript) (physical_time : Real) :
    ∃ pre : List Event,
      (innerIteration sc physical_time).events = pre ++ updateStructureEvents ∧
        (∀ ev ∈ pre, Event.isStructureUpdate ev = false) ∧
        ∀ ev ∈ updateStructureEvents,
          ((innerIteration sc physical_time).events.count ev) = 1 := by
  refine ⟨preEvents sc physical_time, rfl, preEvents_no_structure_update sc physical_time, ?_⟩
  intro ev hev
  have h1 : ∀ e ∈ updateStructureEvents, Event.isStructureUpdate e = true := by decide
  have h2 : updateStructureEvents.Nodup := by decide
  have h3 : (innerIteration sc physical_time).events =
      preEvents sc physical_time ++ updateStructureEvents := rfl
  rw [h3, List.count_append]
  have hz : (preEvents sc physical_time).count ev = 0 := by
    rw [List.count_eq_zero]
    intro hmem
    have hf := preEvents_no_structure_update sc physical_time ev hmem
    rw [h1 ev hev] at hf
    exact absurd hf (by simp)
  rw [hz, List.count_eq_one_of_mem h2 hev]

theorem reorder_refresh_once_after_subloop_witness :
    ((innerIteration ⟨1/50, 3/100, [⟨1/100, 1/100⟩]⟩ 0).events.count
      (Event.reorder FluidPhase.Water)) = 1 := by
  obtain ⟨pre, heq, hpre, hcount⟩ :=
    reorder_refresh_once_after_subloop ⟨1/50, 3/100, [⟨1/100, 1/100⟩]⟩ 0
  exact hcount (Event.reorder FluidPhase.Water) (by decide)

end SPH
